import Mathlib

/-!
Verification development for the minigtest harness
(`demo_c_project/third_party/minigtest/gtest.cpp` / `gtest.h`) and the
calculator / min-heap subjects (`calculator.c`).

The C++ sources are shallowly embedded: stateful code becomes explicit state
passing, exceptions become explicit exit tags, and the process-global
`g_output_path` becomes a parameter threaded through the functions that read
it.  Definitions keep the names of the source functions they embed.
-/

namespace Minigtest

/-- Mirrors `struct AssertionRecord { bool fatal; std::string message;
std::string file; int line; }` from `gtest.h`. -/
structure AssertionRecord where
  fatal : Bool
  message : String
  file : String
  line : Int
deriving Repr, DecidableEq

/-- Mirrors `testing::AddFailure` from `gtest.cpp`: if no context is
installed (`current_context == nullptr`) the call returns immediately;
otherwise the record is appended to the context's failure list and, when
`fatal` holds, `AssertionException` is thrown.  The ambient
`current_context` pointer is passed explicitly as an `Option`; the returned
`Bool` is `true` exactly when the call throws `AssertionException`. -/
def AddFailure (ctx : Option (List AssertionRecord)) (file : String) (line : Int)
    (message : String) (fatal : Bool) : Option (List AssertionRecord) × Bool :=
  match ctx with
  | none => (none, false)
  | some failures =>
      (some (failures ++ [{ fatal := fatal, message := message, file := file, line := line }]),
       fatal)

/-- One statement of a test body, as seen by the harness.  An assertion
statement (`EXPECT_*` / `ASSERT_*`) carries whether its predicate holds
(`ok`), the diagnostic message the assertion engine would format, its
source location, and the `fatal` flag.  The other constructors model a
statement that throws an exception derived from `std::exception`
(carrying `what()`) or a non-standard exception. -/
inductive Stmt where
  | assertStmt (ok : Bool) (file : String) (line : Int) (message : String) (fatal : Bool)
  | throwStd (what : String)
  | throwNonStd
deriving Repr, DecidableEq

/-- How control leaves a test body: normal return, the `AssertionException`
abort sentinel, an escaping `std::exception`, or an escaping non-standard
exception. -/
inductive BodyExit where
  | normal
  | assertAbort
  | stdExc (what : String)
  | nonStdExc
deriving Repr, DecidableEq

/-- Runs the statements of a test body against the installed context.  A
failed assertion calls `AddFailure` (as `ExpectEqual` / `ExpectTrue` in
`gtest.h` do); if that throws, the remaining statements do not execute and
the body exits with the abort sentinel.  A throwing statement likewise
stops execution with the corresponding exit. -/
def execStmts : List Stmt → Option (List AssertionRecord) →
    Option (List AssertionRecord) × BodyExit
  | [], ctx => (ctx, BodyExit.normal)
  | Stmt.assertStmt ok file line message fatal :: rest, ctx =>
      if ok then execStmts rest ctx
      else
        match AddFailure ctx file line message fatal with
        | (ctx', thrown) =>
            if thrown then (ctx', BodyExit.assertAbort) else execStmts rest ctx'
  | Stmt.throwStd w :: _, ctx => (ctx, BodyExit.stdExc w)
  | Stmt.throwNonStd :: _, ctx => (ctx, BodyExit.nonStdExc)

/-- Mirrors `struct TestInfo { std::string suite; std::string name;
std::function<void()> func; }`, with the body given as its statement list. -/
structure TestInfo where
  suite : String
  name : String
  body : List Stmt
deriving Repr, DecidableEq

/-- Whether the per-test region of `RunAllTests` finished normally (control
reached the code after the `try`/`catch`) or an exception escaped the
`catch` handlers, leaving `RunAllTests` (and `main`) entirely. -/
inductive TestExit where
  | finished
  | escaped
deriving Repr, DecidableEq

/-- One iteration of the loop in `RunAllTests`: install a fresh context,
run the body, and handle its exit the way the `try`/`catch` does.
`catch (const AssertionException&)` swallows the abort sentinel.  The other
two handlers call `AddFailure("unknown", 0, ..., true)`; since the context
is still installed, that call appends the record and then throws
`AssertionException` — thrown from inside a catch handler, it is not caught
by the sibling handlers of the same `try` and escapes `RunAllTests`.
Returns the context's failure list at the moment control leaves the
per-test region, and whether it left normally. -/
def runTest (body : List Stmt) : List AssertionRecord × TestExit :=
  match execStmts body (some []) with
  | (ctx, BodyExit.normal) => (ctx.getD [], TestExit.finished)
  | (ctx, BodyExit.assertAbort) => (ctx.getD [], TestExit.finished)
  | (ctx, BodyExit.stdExc w) =>
      match AddFailure ctx "unknown" 0 ("Unhandled exception: " ++ w) true with
      | (ctx', thrown) =>
          (ctx'.getD [], if thrown then TestExit.escaped else TestExit.finished)
  | (ctx, BodyExit.nonStdExc) =>
      match AddFailure ctx "unknown" 0 "Unhandled non-standard exception" true with
      | (ctx', thrown) =>
          (ctx'.getD [], if thrown then TestExit.escaped else TestExit.finished)

/-- The test loop of `RunAllTests`: each test's recorded failures are
collected in order (`failures[i] = ctx.failures`).  `none` models the run
never completing because an exception escaped the per-test region and
terminated the process. -/
def runTests : List TestInfo → Option (List (List AssertionRecord))
  | [] => some []
  | t :: rest =>
      match runTest t.body with
      | (fs, TestExit.finished) => (runTests rest).map (fs :: ·)
      | (_, TestExit.escaped) => none

/-- A statement that is an assertion whose predicate holds (it records
nothing and execution falls through to the next statement). -/
def passingAssert (s : Stmt) : Prop :=
  ∃ file line message fatal, s = Stmt.assertStmt true file line message fatal

/-- The per-test data `WriteXmlReport` consumes: the C++ keeps the parallel
vectors `tests`, `failures` and `durations_ms` indexed alike; here one
record joins the three at a common index.  Durations come from
`duration_cast<std::chrono::milliseconds>(...).count()`, a nonnegative
integer count of milliseconds. -/
structure TestResult where
  suite : String
  name : String
  failures : List AssertionRecord
  duration_ms : Nat
deriving Repr, DecidableEq

/-- Decimal digits of a natural number with explicit recursion fuel (any
fuel bound of at least one digit per division step suffices; `natStr`
supplies one that always does). -/
def natStrAux : Nat → Nat → String
  | 0, _ => ""
  | fuel + 1, n =>
      if n < 10 then String.mk [Char.ofNat (48 + n)]
      else natStrAux fuel (n / 10) ++ String.mk [Char.ofNat (48 + n % 10)]

/-- Decimal digit characters of a natural number, most significant first,
as `operator<<` prints integers. -/
def natStr (n : Nat) : String :=
  natStrAux (n + 1) n

/-- The three zero-padded fractional digits of a sub-second millisecond
count. -/
def pad3 (r : Nat) : String :=
  String.mk [Char.ofNat (48 + r / 100 % 10), Char.ofNat (48 + r / 10 % 10),
    Char.ofNat (48 + r % 10)]

/-- Renders `ms / 1000.0` under `std::fixed << std::setprecision(3)`:
exactly three digits after the decimal point.  Durations are exact
multiples of 1/1000, so the binary-rounding error of the `double` (below
one part in 2^50) never moves the third decimal. -/
def renderFixed3 (ms : Nat) : String :=
  natStr (ms / 1000) ++ "." ++ pad3 (ms % 1000)

/-- Rounds `n / scale` to the nearest integer, ties to even — the rounding
used when a decimal printing position truncates significant digits. -/
def roundHalfEven (n scale : Nat) : Nat :=
  let q := n / scale
  let r := n % scale
  if 2 * r < scale then q
  else if scale < 2 * r then q + 1
  else if q % 2 = 0 then q else q + 1

/-- Strips trailing `'0'` characters from a digit string. -/
def stripZeros (s : String) : String :=
  String.mk (s.data.reverse.dropWhile (· = '0')).reverse

/-- Fixed-notation rendering of `ms / 1000` with trailing fractional zeros
(and a bare decimal point) removed, as `%g`-style general formatting does. -/
def renderGeneralFixed (ms : Nat) : String :=
  let frac := stripZeros (pad3 (ms % 1000))
  natStr (ms / 1000) ++ (if frac = "" then "" else "." ++ frac)

/-- Renders `ms / 1000.0` under the default `std::ostream` floating-point
formatting (general format, precision 6), which is what the stream uses
before any manipulator has been applied: six significant digits, trailing
fractional zeros removed, scientific notation from 10^6 upward.  The values
printed are exact multiples of 1/1000, so this exact-rational model agrees
with the `double` output except on sub-ulp decimal ties. -/
def renderDefault (ms : Nat) : String :=
  let d := (natStr ms).length
  if d ≤ 6 then renderGeneralFixed ms
  else if d ≤ 9 then renderGeneralFixed (roundHalfEven ms (10 ^ (d - 6)) * 10 ^ (d - 6))
  else
    let q := roundHalfEven ms (10 ^ (d - 6))
    let mantissa := if q = 10 ^ 6 then 10 ^ 5 else q
    let exp := if q = 10 ^ 6 then d - 3 else d - 4
    let mfrac := stripZeros (natStr (mantissa % 10 ^ 5))
    natStr (mantissa / 10 ^ 5) ++ (if mfrac = "" then "" else "." ++ mfrac) ++
      "e+" ++ (if exp < 10 then "0" else "") ++ natStr exp

/-- Whether a rendered time value consists of an integer part, a decimal
point, and exactly three decimal digits (the shape
`std::fixed << std::setprecision(3)` produces). -/
def threeDecimals (s : String) : Bool :=
  decide ((s.data.filter (· = '.')).length = 1) &&
    decide ((s.data.dropWhile (· ≠ '.')).length = 4) &&
    ((s.data.dropWhile (· ≠ '.')).drop 1).all (·.isDigit)

/-- Lexicographic strict comparison of character lists, byte-wise as
`std::less<std::string>` compares. -/
def strLtAux : List Char → List Char → Bool
  | [], [] => false
  | [], _ :: _ => true
  | _ :: _, [] => false
  | a :: as, b :: bs =>
      if a.toNat < b.toNat then true
      else if b.toNat < a.toNat then false
      else strLtAux as bs

/-- The strict weak order `std::less<std::string>` used by the
`std::map` in `WriteXmlReport`. -/
def strLt (s t : String) : Bool :=
  strLtAux s.toList t.toList

/-- Mirrors `suite_map[tests[i].suite].push_back(i)`: `std::map` keeps its
entries sorted by key (`std::less<std::string>`), inserting a fresh
singleton entry for an unseen key and appending to the entry's vector
otherwise.  Because the parallel vectors are joined into `TestResult`
records, each entry holds the member results themselves (in index order)
rather than the indices. -/
def mapInsert (k : String) (r : TestResult) :
    List (String × List TestResult) → List (String × List TestResult)
  | [] => [(k, [r])]
  | (k', vs) :: rest =>
      if k = k' then (k', vs ++ [r]) :: rest
      else if strLt k k' then (k, [r]) :: (k', vs) :: rest
      else (k', vs) :: mapInsert k r rest

/-- The `std::map<std::string, std::vector<size_t>> suite_map` of
`WriteXmlReport`, built by inserting every test result in index order. -/
def suite_map (results : List TestResult) : List (String × List TestResult) :=
  results.foldl (fun m r => mapInsert r.suite r m) []

/-- One `<testcase>` element of the report with its emitted attributes. -/
structure XmlTestcase where
  name : String
  result : String
  timeAttr : String
  classname : String
  failureRecords : List AssertionRecord
deriving Repr, DecidableEq

/-- One `<testsuite>` element of the report with its emitted attributes. -/
structure XmlTestsuite where
  name : String
  testsAttr : Nat
  failuresAttr : Nat
  timeAttr : String
  testcases : List XmlTestcase
deriving Repr, DecidableEq

/-- The `<testsuites>` document (`disabled`/`errors` are the constant 0). -/
structure XmlReport where
  testsAttr : Nat
  failuresAttr : Nat
  suites : List XmlTestsuite
deriving Repr, DecidableEq

/-- The `<testcase>` element emitted for one result: `result` is
`"completed"` when the failure list is empty and `"failed"` otherwise, and
the time is printed right after `std::fixed << std::setprecision(3)` is
applied, hence always with three decimals. -/
def mkTestcase (r : TestResult) : XmlTestcase :=
  { name := r.name
    result := if r.failures.isEmpty then "completed" else "failed"
    timeAttr := renderFixed3 r.duration_ms
    classname := r.suite
    failureRecords := r.failures }

/-- Emits the `<testsuite>` elements in `suite_map` iteration order.
`fixedMode` is the stream's formatting state: initially the default, and
sticky once the testcase loop has applied `std::fixed <<
std::setprecision(3)`; a suite's own `time` attribute is printed before its
testcases, so it uses the state left by the previous suite's testcases. -/
def emitSuites : Bool → List (String × List TestResult) → List XmlTestsuite
  | _, [] => []
  | fixedMode, (s, members) :: rest =>
      { name := s
        testsAttr := members.length
        failuresAttr := (members.map (fun r => r.failures.length)).sum
        timeAttr :=
          if fixedMode then renderFixed3 ((members.map (fun r => r.duration_ms)).sum)
          else renderDefault ((members.map (fun r => r.duration_ms)).sum)
        testcases := members.map mkTestcase } ::
      emitSuites (fixedMode || !members.isEmpty) rest

/-- The XML document `WriteXmlReport` emits for the given results:
`tests` is `tests.size()`, `failures` the sum of all per-test failure
counts, and the suites come from `suite_map` in its iteration order. -/
def xmlReport (results : List TestResult) : XmlReport :=
  { testsAttr := results.length
    failuresAttr := (results.map (fun r => r.failures.length)).sum
    suites := emitSuites false (suite_map results) }

/-- Mirrors `WriteXmlReport`'s boundary behaviour: with an empty
`g_output_path` it returns without writing; if the destination cannot be
opened (`canOpen = false`) it warns and returns.  `some` carries the
document written to the destination. -/
def WriteXmlReport (g_output_path : String) (canOpen : Bool)
    (results : List TestResult) : Option XmlReport :=
  if g_output_path = "" then none
  else if canOpen then some (xmlReport results) else none

/-- Joins the parallel vectors `tests`, `failures`, `durations_ms` into
`TestResult` records. -/
def mkResults : List TestInfo → List (List AssertionRecord) → List Nat → List TestResult
  | t :: ts, fs :: fss, d :: ds =>
      { suite := t.suite, name := t.name, failures := fs, duration_ms := d } ::
        mkResults ts fss ds
  | _, _, _ => []

/-- Mirrors `RunAllTests`: run every registered test, then write the XML
report, then return `failed == 0 ? 0 : 1` where `failed` counts tests with
a nonempty failure list.  The measured durations are an input (wall-clock
timing is environment data), as is whether the report destination can be
opened.  `none` models the process terminating because an exception escaped
the per-test region. -/
def RunAllTests (g_output_path : String) (canOpen : Bool) (durations_ms : List Nat)
    (tests : List TestInfo) : Option (Nat × Option XmlReport) :=
  match runTests tests with
  | none => none
  | some fss =>
      let failed := (fss.filter (fun f => !f.isEmpty)).length
      some ((if failed = 0 then 0 else 1),
            WriteXmlReport g_output_path canOpen (mkResults tests fss durations_ms))

/-- Mirrors the recognition step of `InitGoogleTest`: when the argument
starts with `"--gtest_output=xml:"` (the `rfind(prefix, 0) == 0` test),
yields the text after it (`arg.substr(prefix.size())`). -/
def outputArgPath (arg : String) : Option String :=
  if arg.toList.take 19 = "--gtest_output=xml:".toList then
    some (String.mk (arg.toList.drop 19))
  else none

/-- One iteration of the `InitGoogleTest` loop: a recognized argument
overwrites `g_output_path`, any other argument leaves it unchanged. -/
def updatePath (path : String) (arg : String) : String :=
  match outputArgPath arg with
  | some p => p
  | none => path

/-- Mirrors `InitGoogleTest`'s loop over `argv[1..argc)`; `args` is the
argument vector after the program name, and `g_output_path` starts out
empty. -/
def InitGoogleTest (args : List String) : String :=
  args.foldl updatePath ""

/-- Modelled from the spec (§4.5 "group by suite name preserving
first-appearance order"): the suite names in the order in which each first
occurs in the registered test sequence.  This is the specification-side
ordering, to be compared with the order `suite_map` actually produces. -/
def firstAppearanceSuites (results : List TestResult) : List String :=
  results.foldl (fun acc r => if r.suite ∈ acc then acc else acc ++ [r.suite]) []

end Minigtest

namespace Calc

/-- Element of the heap array at index `i` (`heap[i]`); indices used by the
source are always below the current size, so the default is never the value
read in any reachable call. -/
def nth (l : List Int) (i : Nat) : Int :=
  l.getD i 0

/-- The three-statement swap `tmp = heap[i]; heap[i] = heap[j]; heap[j] = tmp`
(with the two indices passed explicitly). -/
def listSwap (l : List Int) (i j : Nat) : List Int :=
  (l.set i (nth l j)).set j (nth l i)

/-- Mirrors `heap_sift_up`: while `idx > 0`, compare with the parent
`(idx - 1) / 2`; stop when `heap[parent] <= heap[idx]`, otherwise swap and
continue from the parent. -/
def heap_sift_up (heap : List Int) (idx : Nat) : List Int :=
  if h : 0 < idx then
    if nth heap ((idx - 1) / 2) ≤ nth heap idx then heap
    else heap_sift_up (listSwap heap ((idx - 1) / 2) idx) ((idx - 1) / 2)
  else heap
termination_by idx
decreasing_by exact Nat.lt_of_le_of_lt (Nat.div_le_self _ 2) (Nat.pred_lt' h)

/-- The index `smallest` computed by one iteration of `heap_sift_down`:
`idx`, or whichever in-range child holds the strictly smaller value. -/
def siftDownTarget (heap : List Int) (size idx : Nat) : Nat :=
  let left := idx * 2 + 1
  let right := idx * 2 + 2
  let s1 := if left < size ∧ nth heap left < nth heap idx then left else idx
  if right < size ∧ nth heap right < nth heap s1 then right else s1

theorem siftDownTarget_lt {heap : List Int} {size idx : Nat}
    (h : siftDownTarget heap size idx ≠ idx) :
    idx < siftDownTarget heap size idx ∧ siftDownTarget heap size idx < size := by
  simp only [siftDownTarget] at h ⊢
  by_cases h1 : idx * 2 + 1 < size ∧ nth heap (idx * 2 + 1) < nth heap idx
  · rw [if_pos h1] at h ⊢
    by_cases h2 : idx * 2 + 2 < size ∧ nth heap (idx * 2 + 2) < nth heap (idx * 2 + 1)
    · rw [if_pos h2]; exact ⟨by omega, h2.1⟩
    · rw [if_neg h2]; exact ⟨by omega, h1.1⟩
  · rw [if_neg h1] at h ⊢
    by_cases h2 : idx * 2 + 2 < size ∧ nth heap (idx * 2 + 2) < nth heap idx
    · rw [if_pos h2]; exact ⟨by omega, h2.1⟩
    · rw [if_neg h2] at h ⊢; exact absurd rfl h

/-- Mirrors `heap_sift_down`: repeatedly swap `idx` with its smallest
in-range child while some child is strictly smaller. -/
def heap_sift_down (heap : List Int) (size idx : Nat) : List Int :=
  let smallest := siftDownTarget heap size idx
  if h : smallest = idx then heap
  else heap_sift_down (listSwap heap idx smallest) size smallest
termination_by size - idx
decreasing_by
  have := siftDownTarget_lt h
  omega

/-- The caller-owned priority-queue state: the live prefix of the malloc'd
buffer (`heap[0..size)`, so `size = heap.length`) together with
`capacity`.  Cells past `size` are never read, and `malloc`/`realloc`
preserve the live prefix, so the dead tail is not represented. -/
structure MinHeap where
  heap : List Int
  capacity : Nat
deriving Repr, DecidableEq

/-- Mirrors `min_heap_insert`: grow the capacity (to 10 from 0, else
doubling when full), store the value at index `size`, increment the size,
and sift the new element up. -/
def min_heap_insert (q : MinHeap) (value : Int) : MinHeap :=
  let capacity :=
    if q.capacity = 0 then 10
    else if q.capacity ≤ q.heap.length then q.capacity * 2
    else q.capacity
  { heap := heap_sift_up (q.heap ++ [value]) ((q.heap ++ [value]).length - 1)
    capacity := capacity }

/-- Mirrors `min_heap_delete_min`: on an empty queue return the sentinel
`-1` and leave the state untouched; otherwise move the last element to the
root, shrink the size, sift the root down when elements remain, and return
the removed minimum. -/
def min_heap_delete_min (q : MinHeap) : Int × MinHeap :=
  if q.heap.length = 0 then (-1, q)
  else
    let min := nth q.heap 0
    let h1 := (q.heap.set 0 (nth q.heap (q.heap.length - 1))).take (q.heap.length - 1)
    let h2 := if 0 < h1.length then heap_sift_down h1 h1.length 0 else h1
    (min, { heap := h2, capacity := q.capacity })

/-- Mirrors `min_heap_peek_min`. -/
def min_heap_peek_min (q : MinHeap) : Int :=
  if q.heap.length = 0 then -1 else nth q.heap 0

/-- Inserting a sequence of values into the queue started as
`heap = NULL, size = 0, capacity = 0`. -/
def insertAll (l : List Int) : MinHeap :=
  l.foldl min_heap_insert { heap := [], capacity := 0 }

/-- Calling `min_heap_delete_min` `n` times, collecting the returned
values in order. -/
def extractAll : Nat → MinHeap → List Int × MinHeap
  | 0, q => ([], q)
  | n + 1, q =>
      match min_heap_delete_min q with
      | (m, q') =>
          match extractAll n q' with
          | (rest, q'') => (m :: rest, q'')

/-- The min-heap shape invariant on the live array: every non-root element
is at least its parent. -/
def IsHeap (l : List Int) : Prop :=
  ∀ i, 0 < i → i < l.length → nth l ((i - 1) / 2) ≤ nth l i

/-- Loop invariant of `heap_sift_up`: the heap shape holds everywhere
except possibly at `k`, and (when `k` is not the root) `k`'s parent is at
most each of `k`'s children, so that swapping `k` upward cannot break the
edges below it. -/
def AlmostUp (l : List Int) (k : Nat) : Prop :=
  (∀ i, 0 < i → i < l.length → i ≠ k → nth l ((i - 1) / 2) ≤ nth l i)
  ∧ (0 < k → ∀ c, 0 < c → c < l.length → (c - 1) / 2 = k →
      nth l ((k - 1) / 2) ≤ nth l c)

/-- Loop invariant of `heap_sift_down`: the heap shape holds on every edge
whose parent is not `k`, and (when `k` is not the root) `k`'s parent is at
most each of `k`'s children. -/
def AlmostDown (l : List Int) (k : Nat) : Prop :=
  (∀ i, 0 < i → i < l.length → (i - 1) / 2 ≠ k → nth l ((i - 1) / 2) ≤ nth l i)
  ∧ (0 < k → ∀ c, 0 < c → c < l.length → (c - 1) / 2 = k →
      nth l ((k - 1) / 2) ≤ nth l c)

end Calc

namespace Minigtest

theorem execStmts_append_passing (pre rest : List Stmt)
    (ctx : Option (List AssertionRecord)) (h : ∀ s ∈ pre, passingAssert s) :
    execStmts (pre ++ rest) ctx = execStmts rest ctx := by
  induction pre with
  | nil => rfl
  | cons s pre ih =>
      obtain ⟨f, l, m, ft, rfl⟩ := h s (by simp)
      simpa [execStmts] using ih (fun t ht => h t (by simp [ht]))

/-- C1: a test body whose first failing assertion is fatal appends that
failure to the active context and raises the abort signal, so none of the
statements after it execute; the Runner catches the abort at the test-body
boundary, exactly that one failure is recorded for the test, and the run
continues with the next registered test. -/
theorem c1_fatal_assertion_aborts_body_once (suite name file msg : String)
    (line : Int) (pre post : List Stmt) (rest : List TestInfo)
    (hpre : ∀ s ∈ pre, passingAssert s) :
    runTest (pre ++ Stmt.assertStmt false file line msg true :: post) =
      ([{ fatal := true, message := msg, file := file, line := line }],
       TestExit.finished)
    ∧ runTests (⟨suite, name,
          pre ++ Stmt.assertStmt false file line msg true :: post⟩ :: rest) =
        (runTests rest).map
          ([{ fatal := true, message := msg, file := file, line := line }] :: ·) := by
  have hexec : execStmts (pre ++ Stmt.assertStmt false file line msg true :: post)
      (some []) =
      (some [{ fatal := true, message := msg, file := file, line := line }],
       BodyExit.assertAbort) := by
    rw [execStmts_append_passing _ _ _ hpre]
    simp [execStmts, AddFailure]
  have h1 : runTest (pre ++ Stmt.assertStmt false file line msg true :: post) =
      ([{ fatal := true, message := msg, file := file, line := line }],
       TestExit.finished) := by
    simp [runTest, hexec]
  exact ⟨h1, by simp [runTests, h1]⟩

theorem c1_fatal_assertion_aborts_body_once_witness :
    runTest ([Stmt.assertStmt true "t.cpp" 10 "ok" false] ++
        Stmt.assertStmt false "t.cpp" 11 "boom" true ::
          [Stmt.assertStmt true "t.cpp" 12 "after" false]) =
      ([{ fatal := true, message := "boom", file := "t.cpp", line := 11 }],
       TestExit.finished)
    ∧ runTests (⟨"Calculator", "Fatal",
          [Stmt.assertStmt true "t.cpp" 10 "ok" false] ++
            Stmt.assertStmt false "t.cpp" 11 "boom" true ::
              [Stmt.assertStmt true "t.cpp" 12 "after" false]⟩ ::
          [⟨"Calculator", "Next", []⟩]) =
        (runTests [⟨"Calculator", "Next", []⟩]).map
          ([{ fatal := true, message := "boom", file := "t.cpp", line := 11 }] :: ·) :=
  c1_fatal_assertion_aborts_body_once "Calculator" "Fatal" "t.cpp" "boom" 11
    [Stmt.assertStmt true "t.cpp" 10 "ok" false]
    [Stmt.assertStmt true "t.cpp" 12 "after" false]
    [⟨"Calculator", "Next", []⟩]
    (by rintro s hs
        simp only [List.mem_singleton] at hs
        exact ⟨"t.cpp", 10, "ok", false, hs⟩)

/-- C2: evaluation at the failing input.  A test body that throws an
ordinary `std::exception` does get the placeholder failure recorded, but
`AddFailure` then rethrows the fatal sentinel from inside the catch
handler, so the exception escapes the per-test boundary and the run never
reaches the next registered test. -/
theorem c2_unexpected_failure_escapes_runner :
    runTest [Stmt.throwStd "boom"] =
      ([{ fatal := true, message := "Unhandled exception: boom",
          file := "unknown", line := 0 }], TestExit.escaped)
    ∧ runTests [⟨"Calculator", "Throws", [Stmt.throwStd "boom"]⟩,
        ⟨"Calculator", "Next", []⟩] = none := by
  decide

/-- C3: when the run completes, the exit status returned by `RunAllTests`
is 0 exactly when every executed test recorded no failure and 1 exactly
when some executed test recorded at least one, and the status is the same
whatever the report destination, its writability, and the measured
durations are. -/
theorem c3_exit_code_from_outcomes (path path' : String) (co co' : Bool)
    (ds ds' : List Nat) (tests : List TestInfo)
    (fss : List (List AssertionRecord)) (h : runTests tests = some fss) :
    ∃ code report, RunAllTests path co ds tests = some (code, report)
      ∧ (code = 0 ↔ ∀ f ∈ fss, f = [])
      ∧ (code = 1 ↔ ∃ f ∈ fss, f ≠ [])
      ∧ (RunAllTests path' co' ds' tests).map Prod.fst = some code := by
  refine ⟨if (fss.filter (fun f => !f.isEmpty)).length = 0 then 0 else 1,
    WriteXmlReport path co (mkResults tests fss ds),
    by simp [RunAllTests, h], ?_, ?_, by simp [RunAllTests, h]⟩
  · constructor
    · intro hc f hf
      by_cases hz : (fss.filter (fun f => !f.isEmpty)).length = 0
      · have := List.filter_eq_nil.mp (List.length_eq_zero.mp hz) f hf
        simpa using this
      · simp [hz] at hc
    · intro hall
      have : fss.filter (fun f => !f.isEmpty) = [] :=
        List.filter_eq_nil.mpr (fun f hf => by simp [hall f hf])
      simp [this]
  · constructor
    · intro hc
      by_cases hz : (fss.filter (fun f => !f.isEmpty)).length = 0
      · simp [hz] at hc
      · have hne : fss.filter (fun f => !f.isEmpty) ≠ [] := by
          intro he; exact hz (by simp [he])
        obtain ⟨f, hf⟩ := List.exists_mem_of_ne_nil _ hne
        have := List.mem_filter.mp hf
        exact ⟨f, this.1, by simpa using this.2⟩
    · intro ⟨f, hf, hne⟩
      have : f ∈ fss.filter (fun f => !f.isEmpty) :=
        List.mem_filter.mpr ⟨hf, by simpa using hne⟩
      have hz : (fss.filter (fun f => !f.isEmpty)).length ≠ 0 := by
        intro he
        rw [List.length_eq_zero.mp he] at this
        simp at this
      simp [hz]

theorem c3_exit_code_from_outcomes_witness :
    ∃ code report,
      RunAllTests "report.xml" true [5]
          [⟨"Calculator", "Fails", [Stmt.assertStmt false "t.cpp" 3 "bad" false]⟩] =
        some (code, report)
      ∧ (code = 0 ↔ ∀ f ∈ [[AssertionRecord.mk false "bad" "t.cpp" 3]], f = [])
      ∧ (code = 1 ↔ ∃ f ∈ [[AssertionRecord.mk false "bad" "t.cpp" 3]], f ≠ [])
      ∧ (RunAllTests "" false []
            [⟨"Calculator", "Fails",
              [Stmt.assertStmt false "t.cpp" 3 "bad" false]⟩]).map Prod.fst =
          some code :=
  c3_exit_code_from_outcomes "report.xml" "" true false [5] []
    [⟨"Calculator", "Fails", [Stmt.assertStmt false "t.cpp" 3 "bad" false]⟩]
    [[AssertionRecord.mk false "bad" "t.cpp" 3]]
    (by decide)

theorem foldl_updatePath_filter (args : List String) (init : String) :
    args.foldl updatePath init =
      (args.filter (fun a => (outputArgPath a).isSome)).foldl updatePath init := by
  induction args generalizing init with
  | nil => rfl
  | cons a as ih =>
      rw [List.foldl_cons, List.filter_cons]
      cases ho : outputArgPath a with
      | none =>
          have hu : updatePath init a = init := by simp [updatePath, ho]
          simp [ho, hu, ih]
      | some p =>
          have hu : updatePath init a = p := by simp [updatePath, ho]
          simp [ho, hu, ih]

theorem foldl_updatePath_none (args : List String) (init : String)
    (h : ∀ a ∈ args, outputArgPath a = none) : args.foldl updatePath init = init := by
  induction args generalizing init with
  | nil => rfl
  | cons a as ih =>
      rw [List.foldl_cons]
      have hu : updatePath init a = init := by simp [updatePath, h a (by simp)]
      rw [hu]
      exact ih init (fun b hb => h b (by simp [hb]))

theorem foldl_updatePath_some (args : List String) :
    ∀ init a, a ∈ args → ∀ p, outputArgPath a = some p →
      ∃ b ∈ args, ∃ q, outputArgPath b = some q ∧ args.foldl updatePath init = q := by
  induction args with
  | nil => intro _ a ha; simp at ha
  | cons c cs ih =>
      intro init a ha p hp
      by_cases hcs : ∀ x ∈ cs, outputArgPath x = none
      · have hac : a = c := by
          rcases (by simpa using ha : a = c ∨ a ∈ cs) with h | h
          · exact h
          · rw [hcs a h] at hp; exact absurd hp (by simp)
        subst hac
        refine ⟨a, by simp, p, hp, ?_⟩
        rw [List.foldl_cons, foldl_updatePath_none cs _ hcs]
        simp [updatePath, hp]
      · push_neg at hcs
        obtain ⟨x, hx, hxne⟩ := hcs
        obtain ⟨q, hq⟩ := Option.ne_none_iff_exists'.mp hxne
        obtain ⟨b, hb, q', hq', he⟩ := ih (updatePath init c) x hx q hq
        exact ⟨b, by simp [hb], q', hq', by rw [List.foldl_cons]; exact he⟩

/-- C7: a recognized `--gtest_output=xml:` argument makes the text after
the prefix the XML report destination; with no such argument the
destination stays empty and `WriteXmlReport` writes nothing; arguments not
of this form never change the destination and cause no error. -/
theorem c7_output_flag_parsing (args : List String) :
    InitGoogleTest args =
      InitGoogleTest (args.filter (fun a => (outputArgPath a).isSome))
    ∧ ((∀ a ∈ args, outputArgPath a = none) →
        InitGoogleTest args = "" ∧
          ∀ canOpen results, WriteXmlReport (InitGoogleTest args) canOpen results = none)
    ∧ (∀ a ∈ args, ∀ p, outputArgPath a = some p →
        ∃ b ∈ args, ∃ q, outputArgPath b = some q ∧ InitGoogleTest args = q) := by
  refine ⟨foldl_updatePath_filter args "", fun h => ?_, ?_⟩
  · have he : InitGoogleTest args = "" := foldl_updatePath_none args "" h
    exact ⟨he, fun canOpen results => by rw [he]; simp [WriteXmlReport]⟩
  · intro a ha p hp
    exact foldl_updatePath_some args "" a ha p hp

theorem c7_output_flag_parsing_witness :
    InitGoogleTest ["abc"] = ""
    ∧ WriteXmlReport (InitGoogleTest ["abc"]) true [] = none
    ∧ (∃ b ∈ ["--gtest_output=xml:report.xml"], ∃ q, outputArgPath b = some q ∧
        InitGoogleTest ["--gtest_output=xml:report.xml"] = q) := by
  have h2 := (c7_output_flag_parsing ["abc"]).2.1 (by decide)
  have h3 := (c7_output_flag_parsing ["--gtest_output=xml:report.xml"]).2.2
    "--gtest_output=xml:report.xml" (by simp) "report.xml" (by decide)
  exact ⟨h2.1, h2.2 true [], h3⟩

theorem char_toNat_inj {a b : Char} (h : a.toNat = b.toNat) : a = b := by
  have hi : Function.Injective Char.toNat := StrictMono.injective fun _ _ hlt => hlt
  exact hi h

theorem strLtAux_irrefl : ∀ l, strLtAux l l = false
  | [] => rfl
  | a :: as => by simp [strLtAux, strLtAux_irrefl as]

theorem strLtAux_eq_of_not_lt : ∀ l m, strLtAux l m = false → strLtAux m l = false →
    l = m
  | [], [] => fun _ _ => rfl
  | [], _ :: _ => fun h _ => by simp [strLtAux] at h
  | _ :: _, [] => fun _ h => by simp [strLtAux] at h
  | a :: as, b :: bs => fun h h' => by
      simp only [strLtAux] at h h'
      by_cases h1 : a.toNat < b.toNat
      · rw [if_pos h1] at h; exact absurd h (by simp)
      · rw [if_neg h1] at h
        by_cases h2 : b.toNat < a.toNat
        · rw [if_pos h2] at h'; exact absurd h' (by simp)
        · rw [if_neg h2] at h
          rw [if_neg h2, if_neg h1] at h'
          have hab : a = b := char_toNat_inj (by omega)
          subst hab
          rw [strLtAux_eq_of_not_lt as bs h h']

theorem strLtAux_trans : ∀ l m n, strLtAux l m = true → strLtAux m n = true →
    strLtAux l n = true
  | [], [], _ => fun h _ => by simp [strLtAux] at h
  | [], _ :: _, [] => fun _ h' => by simp [strLtAux] at h'
  | [], _ :: _, _ :: _ => fun _ _ => rfl
  | _ :: _, [], _ => fun h _ => by simp [strLtAux] at h
  | _ :: _, _ :: _, [] => fun _ h' => by simp [strLtAux] at h'
  | a :: as, b :: bs, c :: cs => fun h h' => by
      simp only [strLtAux] at h h' ⊢
      by_cases h1 : a.toNat < b.toNat
      · by_cases h2 : b.toNat < c.toNat
        · rw [if_pos (by omega)]
        · rw [if_neg h2] at h'
          by_cases h3 : c.toNat < b.toNat
          · rw [if_pos h3] at h'; exact absurd h' (by simp)
          · have hbc : b = c := char_toNat_inj (by omega)
            subst hbc
            rw [if_pos h1]
      · rw [if_neg h1] at h
        by_cases h4 : b.toNat < a.toNat
        · rw [if_pos h4] at h; exact absurd h (by simp)
        · rw [if_neg h4] at h
          have hab : a = b := char_toNat_inj (by omega)
          subst hab
          by_cases h2 : a.toNat < c.toNat
          · rw [if_pos h2]
          · rw [if_neg h2] at h' ⊢
            by_cases h3 : c.toNat < a.toNat
            · rw [if_pos h3] at h'; exact absurd h' (by simp)
            · rw [if_neg h3] at h' ⊢
              exact strLtAux_trans as bs cs h h'

theorem strLt_trans {s t u : String} (h : strLt s t = true) (h' : strLt t u = true) :
    strLt s u = true :=
  strLtAux_trans _ _ _ h h'

theorem strLt_irrefl (s : String) : strLt s s = false :=
  strLtAux_irrefl _

theorem strLt_eq_of_not_lt {s t : String} (h : strLt s t = false)
    (h' : strLt t s = false) : s = t := by
  cases s with
  | mk da =>
      cases t with
      | mk db =>
          have hd : da = db := strLtAux_eq_of_not_lt da db h h'
          rw [hd]

theorem mapInsert_map_fst_mem (k : String) (r : TestResult) :
    ∀ m s, s ∈ (mapInsert k r m).map Prod.fst ↔ s = k ∨ s ∈ m.map Prod.fst := by
  intro m
  induction m with
  | nil => intro s; simp [mapInsert]
  | cons e rest ih =>
      intro s
      obtain ⟨k', vs⟩ := e
      simp only [mapInsert]
      split_ifs with h1 h2
      · subst h1
        simp only [List.map_cons, List.mem_cons]
        tauto
      · simp only [List.map_cons, List.mem_cons]
      · simp only [List.map_cons, List.mem_cons, ih]
        tauto

theorem mapInsert_pairwise (k : String) (r : TestResult) :
    ∀ m, List.Pairwise (fun a b => strLt a b = true) (m.map Prod.fst) →
      List.Pairwise (fun a b => strLt a b = true) ((mapInsert k r m).map Prod.fst) := by
  intro m
  induction m with
  | nil => intro _; simp [mapInsert]
  | cons e rest ih =>
      obtain ⟨k', vs⟩ := e
      intro hp
      rw [List.map_cons, List.pairwise_cons] at hp
      simp only [mapInsert]
      split_ifs with h1 h2
      · rw [List.map_cons, List.pairwise_cons]; exact hp
      · rw [List.map_cons, List.pairwise_cons]
        refine ⟨?_, List.pairwise_cons.mpr hp⟩
        rintro x hx
        rcases (by simpa using hx : x = k' ∨ x ∈ rest.map Prod.fst) with rfl | hx
        · exact h2
        · exact strLt_trans h2 (hp.1 x hx)
      · have hlt : strLt k' k = true := by
          cases hkk : strLt k' k
          · exact absurd (strLt_eq_of_not_lt (by simpa using h2) hkk) h1
          · rfl
        rw [List.map_cons, List.pairwise_cons]
        refine ⟨?_, ih hp.2⟩
        intro x hx
        rcases (mapInsert_map_fst_mem k r rest x).mp hx with rfl | hx
        · exact hlt
        · exact hp.1 x hx

theorem mapInsert_entries (k : String) (r : TestResult) :
    ∀ m, List.Pairwise (fun a b => strLt a b = true) (m.map Prod.fst) →
      ∀ p ∈ mapInsert k r m,
        (p ∈ m ∧ p.1 ≠ k) ∨
        (p.1 = k ∧ ∃ vs, p.2 = vs ++ [r] ∧
          ((k, vs) ∈ m ∨ (vs = [] ∧ k ∉ m.map Prod.fst))) := by
  intro m
  induction m with
  | nil =>
      intro _ p hp
      rcases (by simpa [mapInsert] using hp : p = (k, [r])) with rfl
      exact Or.inr ⟨rfl, [], rfl, Or.inr ⟨rfl, by simp⟩⟩
  | cons e rest ih =>
      obtain ⟨k', vs'⟩ := e
      intro hp p hmem
      rw [List.map_cons, List.pairwise_cons] at hp
      simp only [mapInsert] at hmem
      split_ifs at hmem with h1 h2
      · subst h1
        rcases (by simpa using hmem : p = (k, vs' ++ [r]) ∨ p ∈ rest) with rfl | hmem
        · exact Or.inr ⟨rfl, vs', rfl, Or.inl (by simp)⟩
        · refine Or.inl ⟨by simp [hmem], ?_⟩
          intro hpk
          have : strLt k k = true := by
            have := hp.1 p.1 (List.mem_map_of_mem Prod.fst hmem)
            rwa [hpk] at this
          rw [strLt_irrefl] at this
          exact Bool.false_ne_true this
      · rcases (by simpa using hmem : p = (k, [r]) ∨ p = (k', vs') ∨ p ∈ rest)
          with rfl | hmem
        · refine Or.inr ⟨rfl, [], rfl, Or.inr ⟨rfl, ?_⟩⟩
          intro hk
          rcases (by simpa using hk : k = k' ∨ k ∈ rest.map Prod.fst) with rfl | hk
          · exact h1 rfl
          · have hkk := hp.1 k hk
            have : strLt k k = true := strLt_trans h2 hkk
            rw [strLt_irrefl] at this
            exact Bool.false_ne_true this
        · rcases hmem with rfl | hmem
          · exact Or.inl ⟨by simp, fun he => h1 he.symm⟩
          · refine Or.inl ⟨by simp [hmem], ?_⟩
            intro hpk
            have hkk := hp.1 p.1 (List.mem_map_of_mem Prod.fst hmem)
            rw [hpk] at hkk
            have : strLt k k = true := strLt_trans h2 hkk
            rw [strLt_irrefl] at this
            exact Bool.false_ne_true this
      · rcases (by simpa using hmem : p = (k', vs') ∨ p ∈ mapInsert k r rest)
          with rfl | hmem
        · exact Or.inl ⟨by simp, fun he => h1 he.symm⟩
        · rcases ih hp.2 p hmem with ⟨hm, hne⟩ | ⟨hpk, vs, hv, hloc⟩
          · exact Or.inl ⟨by simp [hm], hne⟩
          · refine Or.inr ⟨hpk, vs, hv, ?_⟩
            rcases hloc with hin | ⟨hnil, hnot⟩
            · exact Or.inl (by simp [hin])
            · refine Or.inr ⟨hnil, ?_⟩
              intro hk
              rcases (by simpa using hk : k = k' ∨ k ∈ rest.map Prod.fst) with rfl | hk
              · exact h1 rfl
              · exact hnot (by simpa using hk)

theorem suite_map_append (results : List TestResult) (r : TestResult) :
    suite_map (results ++ [r]) = mapInsert r.suite r (suite_map results) := by
  simp [suite_map, List.foldl_append]

theorem suite_map_spec (results : List TestResult) :
    List.Pairwise (fun a b => strLt a b = true) ((suite_map results).map Prod.fst)
    ∧ (∀ s, s ∈ (suite_map results).map Prod.fst ↔ s ∈ results.map TestResult.suite)
    ∧ (∀ p ∈ suite_map results, p.2 = results.filter (fun t => t.suite = p.1)) := by
  induction results using List.reverseRecOn with
  | nil => exact ⟨by simp [suite_map], by simp [suite_map], by simp [suite_map]⟩
  | append_singleton rs r ih =>
      obtain ⟨ihp, ihm, ihe⟩ := ih
      rw [suite_map_append]
      refine ⟨mapInsert_pairwise _ _ _ ihp, ?_, ?_⟩
      · intro s
        rw [mapInsert_map_fst_mem, ihm s]
        simp only [List.map_append, List.mem_append, List.map_cons, List.map_nil,
          List.mem_singleton]
        tauto
      · intro p hp
        rcases mapInsert_entries r.suite r _ ihp p hp with ⟨hm, hne⟩ | ⟨hpk, vs, hv, hloc⟩
        · rw [ihe p hm, List.filter_append]
          simp [show ¬(r.suite = p.1) from fun he => hne he.symm]
        · rcases hloc with hin | ⟨hnil, hnot⟩
          · have hvs := ihe (r.suite, vs) hin
            simp only at hvs
            rw [hv, List.filter_append]
            simp only [hpk]
            rw [← hvs]
            simp
          · subst hnil
            have hfil : rs.filter (fun t => t.suite = p.1) = [] := by
              rw [List.filter_eq_nil_iff]
              intro t ht hts
              rw [hpk] at hts
              exact hnot ((ihm r.suite).mpr (by
                simp only [List.mem_map]
                exact ⟨t, ht, by simpa using hts⟩))
            rw [hv, List.filter_append, hfil]
            simp [hpk]

theorem emitSuites_names : ∀ (b : Bool) (m : List (String × List TestResult)),
    (emitSuites b m).map XmlTestsuite.name = m.map Prod.fst
  | _, [] => rfl
  | b, e :: rest => by
      obtain ⟨s, members⟩ := e
      simp [emitSuites, emitSuites_names _ rest]

theorem emitSuites_mem_spec : ∀ (b : Bool) (m : List (String × List TestResult))
    (st : XmlTestsuite), st ∈ emitSuites b m →
      ∃ e ∈ m, st.name = e.1 ∧ st.testsAttr = e.2.length
        ∧ st.failuresAttr = (e.2.map (fun t => t.failures.length)).sum
        ∧ st.testcases = e.2.map mkTestcase
  | _, [], st => by simp [emitSuites]
  | b, e :: rest, st => by
      obtain ⟨s, members⟩ := e
      intro hmem
      rcases (by simpa [emitSuites] using hmem :
          st = ({ name := s, testsAttr := members.length,
                  failuresAttr := (members.map (fun t => t.failures.length)).sum,
                  timeAttr := if b
                    then renderFixed3 ((members.map (fun t => t.duration_ms)).sum)
                    else renderDefault ((members.map (fun t => t.duration_ms)).sum),
                  testcases := members.map mkTestcase } : XmlTestsuite)
            ∨ st ∈ emitSuites (b || !members.isEmpty) rest) with rfl | hmem
      · exact ⟨(s, members), by simp, rfl, rfl, rfl, rfl⟩
      · obtain ⟨e, he, hrest⟩ := emitSuites_mem_spec _ rest st hmem
        exact ⟨e, by simp [he], hrest⟩

theorem dropWhile_all_append {p : Char → Bool} :
    ∀ xs ys, (∀ c ∈ xs, p c = true) →
      List.dropWhile p (xs ++ ys) = List.dropWhile p ys
  | [], _, _ => rfl
  | x :: xs, ys, h => by
      rw [List.cons_append, List.dropWhile_cons, if_pos (h x (by simp))]
      exact dropWhile_all_append xs ys (fun c hc => h c (by simp [hc]))

theorem digitChar_isDigit {n : Nat} (h : n < 10) :
    (Char.ofNat (48 + n)).isDigit = true := by
  interval_cases n <;> decide

theorem natStrAux_digits : ∀ fuel n, ∀ c ∈ (natStrAux fuel n).data, c.isDigit = true
  | 0, _ => by simp [natStrAux]
  | fuel + 1, n => by
      intro c hc
      by_cases h : n < 10
      · rw [natStrAux, if_pos h] at hc
        rcases (by simpa using hc : c = Char.ofNat (48 + n)) with rfl
        exact digitChar_isDigit h
      · rw [natStrAux, if_neg h] at hc
        rw [String.data_append] at hc
        rcases List.mem_append.mp hc with hc | hc
        · exact natStrAux_digits fuel (n / 10) c hc
        · rcases (by simpa using hc : c = Char.ofNat (48 + n % 10)) with rfl
          exact digitChar_isDigit (Nat.mod_lt _ (by omega))

theorem natStr_digits (n : Nat) : ∀ c ∈ (natStr n).data, c.isDigit = true :=
  natStrAux_digits (n + 1) n

theorem pad3_digits (r : Nat) : ∀ c ∈ (pad3 r).data, c.isDigit = true := by
  intro c hc
  rcases (by simpa [pad3] using hc :
      c = Char.ofNat (48 + r / 100 % 10) ∨ c = Char.ofNat (48 + r / 10 % 10) ∨
        c = Char.ofNat (48 + r % 10)) with rfl | rfl | rfl <;>
    exact digitChar_isDigit (Nat.mod_lt _ (by omega))

theorem isDigit_ne_dot {c : Char} (h : c.isDigit = true) : ¬(c = '.') := by
  rintro rfl
  exact absurd h (by decide)

theorem threeDecimals_renderFixed3 (ms : Nat) :
    threeDecimals (renderFixed3 ms) = true := by
  have hdata : (renderFixed3 ms).data =
      (natStr (ms / 1000)).data ++ ('.' :: (pad3 (ms % 1000)).data) := by
    simp [renderFixed3, String.data_append]
  have hint := natStr_digits (ms / 1000)
  have hfrac := pad3_digits (ms % 1000)
  have hlen : (pad3 (ms % 1000)).data.length = 3 := by simp [pad3]
  have hfil : ((natStr (ms / 1000)).data ++
      ('.' :: (pad3 (ms % 1000)).data)).filter (fun c => c = '.') =
      ['.'] := by
    rw [List.filter_append]
    have h1 : (natStr (ms / 1000)).data.filter (fun c => c = '.') = [] :=
      List.filter_eq_nil_iff.mpr (fun c hc => by simp [isDigit_ne_dot (hint c hc)])
    have h0 : ((pad3 (ms % 1000)).data).filter (fun c => c = '.') = [] :=
      List.filter_eq_nil_iff.mpr (fun c hc => by simp [isDigit_ne_dot (hfrac c hc)])
    have h2 : ('.' :: (pad3 (ms % 1000)).data).filter (fun c => c = '.') = ['.'] := by
      simp [List.filter_cons, h0]
    rw [h1, h2, List.nil_append]
  have hdrop : ((natStr (ms / 1000)).data ++
      ('.' :: (pad3 (ms % 1000)).data)).dropWhile (fun c => decide (c ≠ '.')) =
      '.' :: (pad3 (ms % 1000)).data := by
    rw [dropWhile_all_append _ _ (fun c hc => by simp [isDigit_ne_dot (hint c hc)])]
    rw [List.dropWhile_cons]
    simp
  simp only [threeDecimals, hdata, hfil, hdrop]
  simp [hlen, List.all_eq_true]
  exact fun c hc => hfrac c hc

theorem emitSuites_time_fixed :
    ∀ (m : List (String × List TestResult)) (st : XmlTestsuite),
      st ∈ emitSuites true m → ∃ ms, st.timeAttr = renderFixed3 ms
  | [], st => by simp [emitSuites]
  | e :: rest, st => by
      obtain ⟨s, members⟩ := e
      intro h
      rcases (by simpa [emitSuites] using h :
          st = ({ name := s, testsAttr := members.length,
                  failuresAttr := (members.map (fun t => t.failures.length)).sum,
                  timeAttr := renderFixed3 ((members.map (fun t => t.duration_ms)).sum),
                  testcases := members.map mkTestcase } : XmlTestsuite)
            ∨ st ∈ emitSuites (true || !members.isEmpty) rest) with rfl | h
      · exact ⟨(members.map (fun t => t.duration_ms)).sum, rfl⟩
      · have hb : (true || !members.isEmpty) = true := by simp
        rw [hb] at h
        exact emitSuites_time_fixed rest st h

/-- C4 counterexample: with suites registered in the order beta, alpha, the
emitted testsuite elements come out as alpha, beta — the sorted iteration
order of the std::map, not the first-appearance order the claim states. -/
theorem c4_first_appearance_counterexample :
    (xmlReport [⟨"beta", "t1", [], 0⟩, ⟨"alpha", "t2", [], 5⟩]).suites.map
        XmlTestsuite.name = ["alpha", "beta"]
    ∧ firstAppearanceSuites [⟨"beta", "t1", [], 0⟩, ⟨"alpha", "t2", [], 5⟩] =
        ["beta", "alpha"]
    ∧ (xmlReport [⟨"beta", "t1", [], 0⟩, ⟨"alpha", "t2", [], 5⟩]).suites.map
          XmlTestsuite.name ≠
        firstAppearanceSuites [⟨"beta", "t1", [], 0⟩, ⟨"alpha", "t2", [], 5⟩] := by
  decide

/-- C4 (amended): the testsuite elements are grouped by suite name but
appear in strictly ascending lexicographic (std::map) order of suite name —
not first-appearance order; the emitted suite names are exactly the
registered suite names, and each testsuite holds exactly the testcases of
the tests sharing its name, in registration order. -/
theorem c4_suites_sorted_by_name (results : List TestResult) :
    List.Pairwise (fun a b => strLt a b = true)
        ((xmlReport results).suites.map XmlTestsuite.name)
    ∧ (∀ s, s ∈ (xmlReport results).suites.map XmlTestsuite.name ↔
        s ∈ results.map TestResult.suite)
    ∧ ∀ st ∈ (xmlReport results).suites,
        st.testcases = (results.filter (fun t => t.suite = st.name)).map mkTestcase := by
  obtain ⟨hp, hm, he⟩ := suite_map_spec results
  have hnames : (xmlReport results).suites.map XmlTestsuite.name =
      (suite_map results).map Prod.fst := by
    simp [xmlReport, emitSuites_names]
  refine ⟨hnames ▸ hp, fun s => hnames ▸ hm s, ?_⟩
  intro st hst
  obtain ⟨e, hemem, hname, _, _, htc⟩ := emitSuites_mem_spec false (suite_map results) st
    (by simpa [xmlReport] using hst)
  rw [htc, he e hemem]
  simp only [hname]

theorem c4_suites_sorted_by_name_witness :
    List.Pairwise (fun a b => strLt a b = true)
        ((xmlReport [⟨"beta", "t1", [], 0⟩, ⟨"alpha", "t2", [], 5⟩]).suites.map
          XmlTestsuite.name)
    ∧ ("beta" ∈ (xmlReport [⟨"beta", "t1", [], 0⟩,
          ⟨"alpha", "t2", [], 5⟩]).suites.map XmlTestsuite.name ↔
        "beta" ∈ ([⟨"beta", "t1", [], 0⟩,
          ⟨"alpha", "t2", [], 5⟩] : List TestResult).map TestResult.suite)
    ∧ ((xmlReport [⟨"beta", "t1", [], 0⟩, ⟨"alpha", "t2", [], 5⟩]).suites.all
        (fun st => decide (st.testcases =
          (([⟨"beta", "t1", [], 0⟩, ⟨"alpha", "t2", [], 5⟩] :
            List TestResult).filter (fun t => t.suite = st.name)).map mkTestcase))) =
        true := by
  have h := c4_suites_sorted_by_name [⟨"beta", "t1", [], 0⟩, ⟨"alpha", "t2", [], 5⟩]
  refine ⟨h.1, h.2.1 "beta", ?_⟩
  rw [List.all_eq_true]
  intro st hst
  simp [h.2.2 st hst]

/-- C5: in every emitted report, the testsuites element counts all
registered-and-run tests and sums all their failure counts, each testsuite
counts its member tests and sums their failure counts, and a testcase's
result attribute is "failed" iff its test recorded at least one failure
(otherwise "completed"). -/
theorem c5_xml_rollup_invariants (results : List TestResult) :
    (xmlReport results).testsAttr = results.length
    ∧ (xmlReport results).failuresAttr =
        (results.map (fun t => t.failures.length)).sum
    ∧ (∀ st ∈ (xmlReport results).suites,
        st.testsAttr = (results.filter (fun t => t.suite = st.name)).length
        ∧ st.failuresAttr =
            ((results.filter (fun t => t.suite = st.name)).map
              (fun t => t.failures.length)).sum)
    ∧ (∀ r : TestResult, ((mkTestcase r).result = "failed" ↔ r.failures ≠ [])
        ∧ ((mkTestcase r).result = "completed" ↔ r.failures = []))
    ∧ ∀ st ∈ (xmlReport results).suites, ∀ tc ∈ st.testcases,
        (tc.result = "failed" ↔ tc.failureRecords ≠ []) := by
  obtain ⟨hp, hm, he⟩ := suite_map_spec results
  have hcase : ∀ r : TestResult, ((mkTestcase r).result = "failed" ↔ r.failures ≠ [])
      ∧ ((mkTestcase r).result = "completed" ↔ r.failures = []) := by
    intro r
    by_cases hf : r.failures = []
    · constructor <;> simp [mkTestcase, hf]
    · constructor <;> simp [mkTestcase, hf]
  refine ⟨rfl, rfl, ?_, hcase, ?_⟩
  · intro st hst
    obtain ⟨e, hemem, hname, htests, hfails, _⟩ :=
      emitSuites_mem_spec false (suite_map results) st (by simpa [xmlReport] using hst)
    have he2 := he e hemem
    constructor
    · rw [htests, he2]
      simp only [hname]
    · rw [hfails, he2]
      simp only [hname]
  · intro st hst tc htcmem
    obtain ⟨e, hemem, _, _, _, htc⟩ :=
      emitSuites_mem_spec false (suite_map results) st (by simpa [xmlReport] using hst)
    rw [htc] at htcmem
    obtain ⟨r, _, rfl⟩ := List.mem_map.mp htcmem
    exact (hcase r).1

theorem c5_xml_rollup_invariants_witness :
    (xmlReport [⟨"beta", "t1", [AssertionRecord.mk false "bad" "t.cpp" 3], 3⟩,
        ⟨"alpha", "t2", [], 4⟩]).testsAttr = 2
    ∧ (xmlReport [⟨"beta", "t1", [AssertionRecord.mk false "bad" "t.cpp" 3], 3⟩,
        ⟨"alpha", "t2", [], 4⟩]).failuresAttr = 1
    ∧ ((mkTestcase ⟨"beta", "t1", [AssertionRecord.mk false "bad" "t.cpp" 3], 3⟩).result =
          "failed" ↔
        ([AssertionRecord.mk false "bad" "t.cpp" 3] : List AssertionRecord) ≠ [])
    ∧ ((xmlReport [⟨"beta", "t1", [AssertionRecord.mk false "bad" "t.cpp" 3], 3⟩,
          ⟨"alpha", "t2", [], 4⟩]).suites.all
        (fun st => decide (st.testsAttr =
          (([⟨"beta", "t1", [AssertionRecord.mk false "bad" "t.cpp" 3], 3⟩,
            ⟨"alpha", "t2", [], 4⟩] :
              List TestResult).filter (fun t => t.suite = st.name)).length))) = true := by
  have h := c5_xml_rollup_invariants
    [⟨"beta", "t1", [AssertionRecord.mk false "bad" "t.cpp" 3], 3⟩, ⟨"alpha", "t2", [], 4⟩]
  refine ⟨h.1, h.2.1, (h.2.2.2.1 _).1, ?_⟩
  rw [List.all_eq_true]
  intro st hst
  simp [(h.2.2.1 st hst).1]

/-- C6 counterexample: a run of one zero-duration test yields a first
testsuite whose time attribute is "0" — the stream's default formatting,
because std::fixed and std::setprecision(3) are applied only inside the
testcase loop, after the first testsuite tag's time was already written;
"0" does not have three decimal digits. -/
theorem c6_first_suite_time_counterexample :
    ((xmlReport [⟨"Calculator", "AddsNumbers", [], 0⟩]).suites.map
        XmlTestsuite.timeAttr) = ["0"]
    ∧ threeDecimals "0" = false := by
  decide

/-- C6 (amended): every testcase time attribute has exactly three decimal
digits, as does every testsuite time attribute except the first
testsuite's, which is written with the stream's default floating-point
formatting (renderDefault) and so in general lacks the three-decimal
shape. -/
theorem c6_time_three_decimals (results : List TestResult) :
    (∀ st ∈ (xmlReport results).suites, ∀ tc ∈ st.testcases,
      threeDecimals tc.timeAttr = true)
    ∧ (∀ st ∈ (xmlReport results).suites.drop 1, threeDecimals st.timeAttr = true)
    ∧ (∀ st, (xmlReport results).suites.head? = some st →
        ∃ ms, st.timeAttr = renderDefault ms) := by
  obtain ⟨hp, hm, he⟩ := suite_map_spec results
  refine ⟨?_, ?_, ?_⟩
  · intro st hst tc htcmem
    obtain ⟨e, _, _, _, _, htc⟩ :=
      emitSuites_mem_spec false (suite_map results) st (by simpa [xmlReport] using hst)
    rw [htc] at htcmem
    obtain ⟨r, _, rfl⟩ := List.mem_map.mp htcmem
    exact threeDecimals_renderFixed3 r.duration_ms
  · intro st hst
    rcases hsm : suite_map results with _ | ⟨e, rest⟩
    · rw [xmlReport] at hst
      simp only at hst
      rw [hsm] at hst
      simp [emitSuites] at hst
    · obtain ⟨s, members⟩ := e
      have hne : members ≠ [] := by
        have hkey : s ∈ (suite_map results).map Prod.fst := by
          rw [hsm]; simp
        obtain ⟨t, htmem, hts⟩ := List.mem_map.mp ((hm s).mp hkey)
        have hment := he (s, members) (by rw [hsm]; simp)
        simp only at hment
        intro hnil
        have : t ∈ members := by
          rw [hment]
          exact List.mem_filter.mpr ⟨htmem, by simp [hts]⟩
        rw [hnil] at this
        simp at this
      have hsuites : (xmlReport results).suites =
          ({ name := s, testsAttr := members.length,
             failuresAttr := (members.map (fun t => t.failures.length)).sum,
             timeAttr := renderDefault ((members.map (fun t => t.duration_ms)).sum),
             testcases := members.map mkTestcase } : XmlTestsuite) ::
            emitSuites true rest := by
        rw [xmlReport]
        simp only
        rw [hsm]
        cases members with
        | nil => exact absurd rfl hne
        | cons a l => simp [emitSuites]
      rw [hsuites] at hst
      simp only [List.drop_one, List.tail_cons] at hst
      obtain ⟨ms, hms⟩ := emitSuites_time_fixed rest st hst
      rw [hms]
      exact threeDecimals_renderFixed3 ms
  · intro st hhead
    rcases hsm : suite_map results with _ | ⟨e, rest⟩
    · rw [xmlReport] at hhead
      simp only at hhead
      rw [hsm] at hhead
      simp [emitSuites] at hhead
    · obtain ⟨s, members⟩ := e
      rw [xmlReport] at hhead
      simp only at hhead
      rw [hsm] at hhead
      simp only [emitSuites, List.head?_cons, Option.some_inj] at hhead
      refine ⟨(members.map (fun t => t.duration_ms)).sum, ?_⟩
      rw [← hhead]
      simp

theorem c6_time_three_decimals_witness :
    (((xmlReport [⟨"beta", "t1", [], 1500⟩, ⟨"alpha", "t2", [], 25⟩]).suites.drop 1).all
        (fun st => threeDecimals st.timeAttr)) = true
    ∧ ∃ st, (xmlReport [⟨"beta", "t1", [], 1500⟩,
          ⟨"alpha", "t2", [], 25⟩]).suites.head? = some st
        ∧ ∃ ms, st.timeAttr = renderDefault ms := by
  have h := c6_time_three_decimals [⟨"beta", "t1", [], 1500⟩, ⟨"alpha", "t2", [], 25⟩]
  constructor
  · rw [List.all_eq_true]
    exact fun st hst => h.2.1 st hst
  · cases hh : (xmlReport [⟨"beta", "t1", [], 1500⟩,
        ⟨"alpha", "t2", [], 25⟩]).suites.head? with
    | none => exact absurd hh (by decide)
    | some st => exact ⟨st, rfl, h.2.2 st hh⟩

/-- C9: a failure reported while no execution context is installed is a
total no-op: `AddFailure` records nothing, raises no abort signal even when
`fatal` is set, and returns the absent context unchanged. -/
theorem c9_addFailure_without_context_noop (file : String) (line : Int)
    (message : String) (fatal : Bool) :
    AddFailure none file line message fatal = (none, false) :=
  rfl

end Minigtest

namespace Calc

theorem nth_set_self : ∀ (l : List Int) (i : Nat) (a : Int), i < l.length →
    nth (l.set i a) i = a
  | [], _, _, h => by simp at h
  | _ :: _, 0, _, _ => rfl
  | b :: t, i + 1, a, h => by
      have := nth_set_self t i a (by simpa using h)
      simpa [nth] using this

theorem nth_set_ne : ∀ (l : List Int) (i j : Nat) (a : Int), i ≠ j →
    nth (l.set i a) j = nth l j
  | [], _, _, _, _ => by simp
  | _ :: _, 0, 0, _, h => absurd rfl h
  | _ :: _, 0, _ + 1, _, _ => by simp [nth]
  | _ :: _, _ + 1, 0, _, _ => by simp [nth]
  | b :: t, i + 1, j + 1, a, h => by
      have := nth_set_ne t i j a (by omega)
      simpa [nth] using this

theorem length_listSwap (l : List Int) (i j : Nat) :
    (listSwap l i j).length = l.length := by
  simp [listSwap]

theorem nth_listSwap_left (l : List Int) {i j : Nat} (hi : i < l.length) :
    nth (listSwap l i j) i = nth l j := by
  unfold listSwap
  by_cases hij : i = j
  · subst hij
    rw [nth_set_self _ _ _ (by simpa using hi)]
  · rw [nth_set_ne _ _ _ _ (fun he => hij he.symm), nth_set_self _ _ _ hi]

theorem nth_listSwap_right (l : List Int) {i j : Nat} (hj : j < l.length) :
    nth (listSwap l i j) j = nth l i := by
  unfold listSwap
  rw [nth_set_self _ _ _ (by simpa using hj)]

theorem nth_listSwap_other (l : List Int) {i j k : Nat} (h1 : k ≠ i) (h2 : k ≠ j) :
    nth (listSwap l i j) k = nth l k := by
  unfold listSwap
  rw [nth_set_ne _ _ _ _ (fun he => h2 he.symm), nth_set_ne _ _ _ _ (fun he => h1 he.symm)]

theorem set_nth_self : ∀ (l : List Int) (i : Nat), l.set i (nth l i) = l
  | [], _ => rfl
  | _ :: _, 0 => rfl
  | a :: t, i + 1 => by
      show a :: t.set i (nth (a :: t) (i + 1)) = a :: t
      rw [show nth (a :: t) (i + 1) = nth t i by simp [nth], set_nth_self t i]

theorem cons_set_perm : ∀ (t : List Int) (j : Nat) (a : Int), j < t.length →
    List.Perm (a :: t) (nth t j :: t.set j a)
  | [], _, _, h => by simp at h
  | b :: t', 0, a, _ => List.Perm.swap b a t'
  | b :: t', j + 1, a, h => by
      have ih := cons_set_perm t' j a (by simpa using h)
      show List.Perm (a :: b :: t') (nth t' j :: (b :: t'.set j a))
      refine List.Perm.trans (List.Perm.swap b a t') ?_
      refine List.Perm.trans (List.Perm.cons b ih) ?_
      exact List.Perm.swap (nth t' j) b _

theorem listSwap_comm (l : List Int) (i j : Nat) : listSwap l i j = listSwap l j i := by
  by_cases hij : i = j
  · subst hij; rfl
  · unfold listSwap
    exact List.set_comm _ _ _ hij

theorem listSwap_perm_lt : ∀ (l : List Int) (i j : Nat), i < j → j < l.length →
    List.Perm (listSwap l i j) l
  | [], _, _, _, h => by simp at h
  | a :: t, 0, j + 1, _, h => by
      have hj : j < t.length := by simpa using h
      show List.Perm (nth t j :: t.set j a) (a :: t)
      exact (cons_set_perm t j a hj).symm
  | a :: t, i + 1, j + 1, hij, h => by
      have ih := listSwap_perm_lt t i j (by omega) (by simpa using h)
      show List.Perm (a :: listSwap t i j) (a :: t)
      exact ih.cons a

theorem listSwap_perm (l : List Int) (i j : Nat) (hi : i < l.length) (hj : j < l.length) :
    List.Perm (listSwap l i j) l := by
  rcases lt_trichotomy i j with hlt | heq | hgt
  · exact listSwap_perm_lt l i j hlt hj
  · subst heq
    unfold listSwap
    rw [List.set_set, set_nth_self]
  · rw [listSwap_comm]
    exact listSwap_perm_lt l j i hgt hi

theorem nth_eq_get : ∀ (l : List Int) (i : Nat) (h : i < l.length),
    nth l i = l.get ⟨i, h⟩
  | _ :: _, 0, _ => rfl
  | a :: t, i + 1, h => by simpa [nth] using nth_eq_get t i (by simpa using h)

theorem nth_mem (l : List Int) (i : Nat) (h : i < l.length) : nth l i ∈ l := by
  rw [nth_eq_get l i h]
  exact l.get_mem _ _

theorem isHeap_root_le (l : List Int) (hh : IsHeap l) :
    ∀ i, i < l.length → nth l 0 ≤ nth l i := by
  intro i
  induction i using Nat.strong_induction_on with
  | _ i ih =>
      intro hi
      rcases Nat.eq_zero_or_pos i with rfl | hpos
      · exact le_refl _
      · exact le_trans (ih ((i - 1) / 2) (by omega) (by omega)) (hh i hpos hi)

theorem isHeap_root_min (l : List Int) (hh : IsHeap l) : ∀ x ∈ l, nth l 0 ≤ x := by
  intro x hx
  obtain ⟨⟨i, hi⟩, hg⟩ := List.mem_iff_get.mp hx
  rw [← hg, ← nth_eq_get l i hi]
  exact isHeap_root_le l hh i hi


theorem heap_sift_up_spec : ∀ (k : Nat) (l : List Int), k < l.length → AlmostUp l k →
    IsHeap (heap_sift_up l k) ∧ List.Perm (heap_sift_up l k) l := by
  intro k
  induction k using Nat.strong_induction_on with
  | _ k ih =>
      intro l hk hAU
      rw [heap_sift_up]
      by_cases hk0 : 0 < k
      · rw [dif_pos hk0]
        by_cases hle : nth l ((k - 1) / 2) ≤ nth l k
        · rw [if_pos hle]
          refine ⟨?_, List.Perm.refl l⟩
          intro i hi hi2
          by_cases hik : i = k
          · subst hik; exact hle
          · exact hAU.1 i hi hi2 hik
        · rw [if_neg hle]
          set p := (k - 1) / 2 with hp
          have hpk : p < k := by omega
          have hpn : p < l.length := by omega
          have hlt : nth l k < nth l p := lt_of_not_le hle
          have hAU' : AlmostUp (listSwap l p k) p := by
            constructor
            · intro i hi hi2 hip
              rw [length_listSwap] at hi2
              by_cases hik : i = k
              · subst hik
                rw [← hp, nth_listSwap_left l hpn, nth_listSwap_right l hk]
                exact le_of_lt hlt
              · by_cases hpik : (i - 1) / 2 = k
                · have hine_p : i ≠ p := by omega
                  rw [hpik, nth_listSwap_right l hk, nth_listSwap_other l hine_p hik]
                  exact hAU.2 hk0 i hi hi2 hpik
                · by_cases hpip : (i - 1) / 2 = p
                  · rw [hpip, nth_listSwap_left l hpn, nth_listSwap_other l hip hik]
                    have hpi := hAU.1 i hi hi2 hik
                    rw [hpip] at hpi
                    exact le_trans (le_of_lt hlt) hpi
                  · rw [nth_listSwap_other l hpip hpik, nth_listSwap_other l hip hik]
                    exact hAU.1 i hi hi2 hik
            · intro hp0 c hc hc2 hcp
              rw [length_listSwap] at hc2
              have hppne_p : (p - 1) / 2 ≠ p := by omega
              have hppne_k : (p - 1) / 2 ≠ k := by omega
              rw [nth_listSwap_other l hppne_p hppne_k]
              by_cases hck : c = k
              · subst hck
                rw [nth_listSwap_right l hk]
                exact hAU.1 p hp0 hpn (by omega)
              · have hcnep : c ≠ p := by omega
                rw [nth_listSwap_other l hcnep hck]
                have h1 := hAU.1 p hp0 hpn (by omega)
                have h2 := hAU.1 c hc hc2 hck
                rw [hcp] at h2
                exact le_trans h1 h2
          have hrec := ih p hpk (listSwap l p k) (by rw [length_listSwap]; omega) hAU'
          exact ⟨hrec.1, hrec.2.trans (listSwap_perm l p k hpn hk)⟩
      · rw [dif_neg hk0]
        refine ⟨?_, List.Perm.refl l⟩
        intro i hi hi2
        exact hAU.1 i hi hi2 (by omega)


theorem siftDownTarget_eq (l : List Int) (size k : Nat)
    (h : siftDownTarget l size k = k) :
    ∀ c, (c = k * 2 + 1 ∨ c = k * 2 + 2) → c < size → nth l k ≤ nth l c := by
  intro c hc hcs
  simp only [siftDownTarget] at h
  by_cases h1 : k * 2 + 1 < size ∧ nth l (k * 2 + 1) < nth l k
  · rw [if_pos h1] at h
    by_cases h2 : k * 2 + 2 < size ∧ nth l (k * 2 + 2) < nth l (k * 2 + 1)
    · rw [if_pos h2] at h; omega
    · rw [if_neg h2] at h; omega
  · rw [if_neg h1] at h
    by_cases h2 : k * 2 + 2 < size ∧ nth l (k * 2 + 2) < nth l k
    · rw [if_pos h2] at h; omega
    · push_neg at h1 h2
      rcases hc with rfl | rfl
      · exact h1 hcs
      · exact h2 hcs

theorem siftDownTarget_min (l : List Int) (size k : Nat)
    (h : siftDownTarget l size k ≠ k) :
    nth l (siftDownTarget l size k) < nth l k
    ∧ (siftDownTarget l size k = k * 2 + 1 ∨ siftDownTarget l size k = k * 2 + 2)
    ∧ ∀ c, (c = k * 2 + 1 ∨ c = k * 2 + 2) → c < size →
        nth l (siftDownTarget l size k) ≤ nth l c := by
  simp only [siftDownTarget] at h ⊢
  by_cases h1 : k * 2 + 1 < size ∧ nth l (k * 2 + 1) < nth l k
  · rw [if_pos h1] at h ⊢
    by_cases h2 : k * 2 + 2 < size ∧ nth l (k * 2 + 2) < nth l (k * 2 + 1)
    · rw [if_pos h2]
      refine ⟨lt_trans h2.2 h1.2, Or.inr rfl, ?_⟩
      intro c hc hcs
      rcases hc with rfl | rfl
      · exact le_of_lt h2.2
      · exact le_refl _
    · rw [if_neg h2]
      push_neg at h2
      refine ⟨h1.2, Or.inl rfl, ?_⟩
      intro c hc hcs
      rcases hc with rfl | rfl
      · exact le_refl _
      · exact h2 hcs
  · rw [if_neg h1] at h ⊢
    by_cases h2 : k * 2 + 2 < size ∧ nth l (k * 2 + 2) < nth l k
    · rw [if_pos h2]
      push_neg at h1
      refine ⟨h2.2, Or.inr rfl, ?_⟩
      intro c hc hcs
      rcases hc with rfl | rfl
      · exact le_trans (le_of_lt h2.2) (h1 hcs)
      · exact le_refl _
    · rw [if_neg h2] at h
      exact absurd rfl h

theorem heap_sift_down_eq (l : List Int) (size k : Nat) :
    heap_sift_down l size k =
      if siftDownTarget l size k = k then l
      else heap_sift_down (listSwap l k (siftDownTarget l size k)) size
        (siftDownTarget l size k) := by
  rw [heap_sift_down]
  simp only [dite_eq_ite]

theorem heap_sift_down_spec : ∀ (d : Nat) (l : List Int) (k : Nat), l.length - k = d →
    k < l.length → AlmostDown l k →
    IsHeap (heap_sift_down l l.length k)
      ∧ List.Perm (heap_sift_down l l.length k) l := by
  intro d
  induction d using Nat.strong_induction_on with
  | _ d ih =>
      intro l k hd hk hAD
      rw [heap_sift_down_eq]
      by_cases hsk : siftDownTarget l l.length k = k
      · rw [if_pos hsk]
        refine ⟨?_, List.Perm.refl l⟩
        intro i hi hi2
        by_cases hpik : (i - 1) / 2 = k
        · have hior : i = k * 2 + 1 ∨ i = k * 2 + 2 := by omega
          have hle := siftDownTarget_eq l l.length k hsk i hior hi2
          rw [hpik]
          exact hle
        · exact hAD.1 i hi hi2 hpik
      · rw [if_neg hsk]
        obtain ⟨hks, hsn⟩ := siftDownTarget_lt hsk
        obtain ⟨hvlt, hchild, hmin⟩ := siftDownTarget_min l l.length k hsk
        generalize hgen : siftDownTarget l l.length k = s at hsk hks hsn hvlt hchild hmin ⊢
        have hpar : (s - 1) / 2 = k := by rcases hchild with rfl | rfl <;> omega
        have hADs : AlmostDown (listSwap l k s) s := by
          constructor
          · intro i hi hi2 hpis
            rw [length_listSwap] at hi2
            by_cases his : i = s
            · subst his
              rw [hpar, nth_listSwap_left l hk, nth_listSwap_right l hsn]
              exact le_of_lt hvlt
            · by_cases hpik : (i - 1) / 2 = k
              · have hior : i = k * 2 + 1 ∨ i = k * 2 + 2 := by omega
                have hine_k : i ≠ k := by omega
                rw [hpik, nth_listSwap_left l hk, nth_listSwap_other l hine_k his]
                exact hmin i hior hi2
              · by_cases hik : i = k
                · subst hik
                  have hppne_k : (i - 1) / 2 ≠ i := by omega
                  have hppne_s : (i - 1) / 2 ≠ s := by omega
                  rw [nth_listSwap_other l hppne_k hppne_s, nth_listSwap_left l hk]
                  exact hAD.2 hi s (by omega) hsn hpar
                · rw [nth_listSwap_other l hpik hpis, nth_listSwap_other l hik his]
                  exact hAD.1 i hi hi2 hpik
          · intro hs0 c hc hc2 hcs
            rw [length_listSwap] at hc2
            rw [hpar, nth_listSwap_left l hk]
            have hcne_k : c ≠ k := by omega
            have hcne_s : c ≠ s := by omega
            rw [nth_listSwap_other l hcne_k hcne_s]
            have h2 := hAD.1 c hc hc2 (by omega)
            rw [hcs] at h2
            exact h2
        have hlen : (listSwap l k s).length = l.length := length_listSwap l k s
        have hrec := ih (l.length - s) (by omega) (listSwap l k s) s (by rw [hlen])
          (by rw [hlen]; exact hsn) hADs
        rw [hlen] at hrec
        exact ⟨hrec.1, hrec.2.trans (listSwap_perm l k s hk hsn)⟩


theorem nth_append_left : ∀ (l t : List Int) (i : Nat), i < l.length →
    nth (l ++ t) i = nth l i
  | [], _, _, h => by simp at h
  | _ :: _, _, 0, _ => rfl
  | a :: l, t, i + 1, h => by
      simpa [nth] using nth_append_left l t i (by simpa using h)

theorem nth_take : ∀ (l : List Int) (k i : Nat), i < k → nth (l.take k) i = nth l i
  | [], _, _, _ => by simp
  | _ :: _, _ + 1, 0, _ => rfl
  | a :: l, k + 1, i + 1, h => by
      simpa [nth] using nth_take l k i (by omega)
  | _ :: _, 0, _, h => by omega

theorem nth_dropLast (t : List Int) (i : Nat) (h : i < t.length - 1) :
    nth t.dropLast i = nth t i := by
  rw [List.dropLast_eq_take, nth_take _ _ _ h]

theorem min_heap_insert_spec (q : MinHeap) (v : Int) (h : IsHeap q.heap) :
    IsHeap (min_heap_insert q v).heap
    ∧ List.Perm (min_heap_insert q v).heap (v :: q.heap) := by
  have hk : q.heap.length < (q.heap ++ [v]).length := by simp
  have hAU : AlmostUp (q.heap ++ [v]) q.heap.length := by
    constructor
    · intro i hi hi2 hik
      rw [List.length_append, List.length_singleton] at hi2
      have hi3 : i < q.heap.length := by omega
      have hpi : (i - 1) / 2 < q.heap.length := by omega
      rw [nth_append_left _ _ _ hpi, nth_append_left _ _ _ hi3]
      exact h i hi hi3
    · intro hpos c hc hc2 hcp
      rw [List.length_append, List.length_singleton] at hc2
      omega
  have hspec := heap_sift_up_spec q.heap.length (q.heap ++ [v]) hk hAU
  have harg : (q.heap ++ [v]).length - 1 = q.heap.length := by simp
  constructor
  · show IsHeap (heap_sift_up (q.heap ++ [v]) ((q.heap ++ [v]).length - 1))
    rw [harg]
    exact hspec.1
  · show List.Perm (heap_sift_up (q.heap ++ [v]) ((q.heap ++ [v]).length - 1))
      (v :: q.heap)
    rw [harg]
    exact hspec.2.trans (List.perm_append_singleton v q.heap)

theorem min_heap_delete_min_spec (q : MinHeap) (hh : IsHeap q.heap)
    (hne : q.heap ≠ []) :
    (min_heap_delete_min q).1 = nth q.heap 0
    ∧ IsHeap (min_heap_delete_min q).2.heap
    ∧ List.Perm ((min_heap_delete_min q).2.heap ++ [nth q.heap 0]) q.heap
    ∧ (min_heap_delete_min q).2.heap.length = q.heap.length - 1
    ∧ (min_heap_delete_min q).2.capacity = q.capacity := by
  obtain ⟨qh, qc⟩ := q
  cases qh with
  | nil => exact absurd rfl hne
  | cons x t =>
      by_cases ht : t = []
      · subst ht
        have hcomp : min_heap_delete_min ⟨[x], qc⟩ = (x, ⟨[], qc⟩) := by
          simp [min_heap_delete_min, nth]
        rw [hcomp]
        exact ⟨rfl, fun i hi hi2 => by simp at hi2, by simp [nth],
          by simp, rfl⟩
      · have htl : 1 ≤ t.length := by
          cases t
          · exact absurd rfl ht
          · simp
        have hg : nth (x :: t) ((x :: t).length - 1) = t.getLast ht := by
          have h1 : (x :: t).length - 1 = t.length := by simp
          rw [h1]
          obtain ⟨m, hm⟩ : ∃ m, t.length = m + 1 := ⟨t.length - 1, by omega⟩
          have h2 : nth (x :: t) t.length = nth t (t.length - 1) := by
            rw [hm]
            simp [nth]
          rw [h2, nth_eq_get t _ (by omega), List.getLast_eq_get]
        have hset : (x :: t).set 0 (t.getLast ht) = t.getLast ht :: t := rfl
        have htake : ((t.getLast ht :: t).take ((x :: t).length - 1)) =
            t.getLast ht :: t.dropLast := by
          have h1 : (x :: t).length - 1 = t.length := by simp
          rw [h1]
          obtain ⟨m, hm⟩ : ∃ m, t.length = m + 1 := ⟨t.length - 1, by omega⟩
          rw [hm, List.take_succ_cons, List.dropLast_eq_take, hm]
          simp
        have hd1 : (t.getLast ht :: t.dropLast).length = t.length := by
          simp
          omega
        have key : ∀ j, 0 < j → j < t.length →
            nth (t.getLast ht :: t.dropLast) j = nth (x :: t) j := by
          intro j hj hj2
          obtain ⟨m, hm⟩ : ∃ m, j = m + 1 := ⟨j - 1, by omega⟩
          subst hm
          show nth t.dropLast m = nth (x :: t) (m + 1)
          rw [nth_dropLast t m (by omega)]
          simp [nth]
        have hAD : AlmostDown (t.getLast ht :: t.dropLast) 0 := by
          constructor
          · intro i hi hi2 hpi0
            rw [hd1] at hi2
            rw [key _ (by omega) (by omega), key i hi hi2]
            exact hh i hi (by simp; omega)
          · intro h00
            exact absurd h00 (lt_irrefl 0)
        have hspec := heap_sift_down_spec (t.getLast ht :: t.dropLast).length
          (t.getLast ht :: t.dropLast) 0 (by simp) (by simp) hAD
        have hcomp : min_heap_delete_min ⟨x :: t, qc⟩ =
            (nth (x :: t) 0,
             ⟨heap_sift_down (t.getLast ht :: t.dropLast)
                (t.getLast ht :: t.dropLast).length 0, qc⟩) := by
          simp only [min_heap_delete_min]
          rw [if_neg (by simp : ¬((x :: t).length = 0))]
          rw [hg, hset, htake]
          rw [if_pos (by simp : 0 < (t.getLast ht :: t.dropLast).length)]
        rw [hcomp]
        have hperm : List.Perm ((t.getLast ht :: t.dropLast) ++ [x]) (x :: t) := by
          have p1 := (List.perm_append_singleton x t.dropLast).cons (t.getLast ht)
          have p2 := List.Perm.swap x (t.getLast ht) t.dropLast
          have p3 := ((List.perm_append_singleton (t.getLast ht) t.dropLast).symm).cons x
          have := (p1.trans p2).trans p3
          rwa [List.dropLast_append_getLast ht] at this
        refine ⟨rfl, hspec.1, ?_, ?_, rfl⟩
        · have hx : nth (x :: t) 0 = x := rfl
          rw [hx]
          exact (hspec.2.append_right [x]).trans hperm
        · have := hspec.2.length_eq
          rw [this, hd1]
          simp


theorem foldl_insert_spec : ∀ (l : List Int) (q : MinHeap), IsHeap q.heap →
    IsHeap (l.foldl min_heap_insert q).heap
    ∧ List.Perm (l.foldl min_heap_insert q).heap (l ++ q.heap)
  | [], q, h => ⟨h, by simp⟩
  | v :: vs, q, h => by
      have hins := min_heap_insert_spec q v h
      have ih := foldl_insert_spec vs (min_heap_insert q v) hins.1
      rw [List.foldl_cons]
      refine ⟨ih.1, ih.2.trans ?_⟩
      exact (List.Perm.append_left vs hins.2).trans List.perm_middle

theorem insertAll_spec (l : List Int) :
    IsHeap (insertAll l).heap ∧ List.Perm (insertAll l).heap l := by
  have h := foldl_insert_spec l ⟨[], 0⟩ (fun i hi hi2 => by simp at hi2)
  exact ⟨h.1, by simpa using h.2⟩

theorem extractAll_spec : ∀ (n : Nat) (q : MinHeap), IsHeap q.heap →
    q.heap.length = n →
    List.Perm (extractAll n q).1 q.heap
    ∧ List.Sorted (· ≤ ·) (extractAll n q).1
    ∧ (extractAll n q).2.heap = [] := by
  intro n
  induction n with
  | zero =>
      intro q hh hlen
      rw [List.length_eq_zero] at hlen
      exact ⟨by simp [extractAll, hlen], by simp [extractAll], by simp [extractAll, hlen]⟩
  | succ n ih =>
      intro q hh hlen
      have hne : q.heap ≠ [] := by
        intro he
        rw [he] at hlen
        simp at hlen
      obtain ⟨h1, h2, h3, h4, _⟩ := min_heap_delete_min_spec q hh hne
      rcases hdel : min_heap_delete_min q with ⟨m, q1⟩
      rw [hdel] at h1 h2 h3 h4
      have hm : m = nth q.heap 0 := h1
      subst hm
      have hq1heap : IsHeap q1.heap := h2
      have hq1perm : List.Perm (q1.heap ++ [nth q.heap 0]) q.heap := h3
      have hq1len : q1.heap.length = n := by
        have h4e : q1.heap.length = q.heap.length - 1 := h4
        omega
      obtain ⟨ihp, ihs, ihe⟩ := ih q1 hq1heap hq1len
      rcases hext : extractAll n q1 with ⟨rest, q2⟩
      rw [hext] at ihp ihs ihe
      have hunfold : extractAll (n + 1) q = (nth q.heap 0 :: rest, q2) := by
        rw [extractAll, hdel]
        show (match extractAll n q1 with
          | (rest, q2) => (nth q.heap 0 :: rest, q2)) = (nth q.heap 0 :: rest, q2)
        rw [hext]
      rw [hunfold]
      refine ⟨?_, ?_, ihe⟩
      · have s1 : List.Perm (nth q.heap 0 :: rest) (nth q.heap 0 :: q1.heap) :=
          ihp.cons _
        have s2 : List.Perm (nth q.heap 0 :: q1.heap) (q1.heap ++ [nth q.heap 0]) :=
          (List.perm_append_singleton _ _).symm
        exact (s1.trans s2).trans hq1perm
      · refine List.sorted_cons.mpr ⟨?_, ihs⟩
        intro b hb
        have hb1 : b ∈ q1.heap := (ihp.mem_iff).mp hb
        have hb2 : b ∈ q.heap :=
          (hq1perm.mem_iff).mp (List.mem_append_left _ hb1)
        exact isHeap_root_min q.heap hh b hb2

/-- C8: for every input sequence (any N at least 0, N = 0 included),
inserting each element with min_heap_insert starting from the state
heap = NULL, size = 0, capacity = 0 and then calling min_heap_delete_min N
times yields exactly the input multiset in nondecreasing order, and the
size reaches 0. -/
theorem c8_heap_insert_extract_sorted (l : List Int) :
    List.Perm (extractAll l.length (insertAll l)).1 l
    ∧ List.Sorted (· ≤ ·) (extractAll l.length (insertAll l)).1
    ∧ (extractAll l.length (insertAll l)).2.heap = [] := by
  obtain ⟨hh, hp⟩ := insertAll_spec l
  obtain ⟨p, sorted, he⟩ := extractAll_spec l.length (insertAll l) hh hp.length_eq
  exact ⟨p.trans hp, sorted, he⟩

/-- C10: on an empty heap, min_heap_delete_min returns the sentinel -1 and
leaves the state (buffer, size, capacity) unchanged, and min_heap_peek_min
returns -1; deleting from a heap that genuinely stores -1 returns the same
-1, so the sentinel is indistinguishable from a stored -1 at the public
interface. -/
theorem c10_empty_queue_sentinel (q : MinHeap) (h : q.heap = []) :
    min_heap_delete_min q = (-1, q)
    ∧ min_heap_peek_min q = -1
    ∧ (min_heap_delete_min (min_heap_insert q (-1))).1 = -1 := by
  have h0 : q.heap.length = 0 := by rw [h]; rfl
  refine ⟨?_, ?_, ?_⟩
  · simp [min_heap_delete_min, h0]
  · simp [min_heap_peek_min, h0]
  · have hins : (min_heap_insert q (-1)).heap = [-1] := by
      simp [min_heap_insert, h]
      rw [heap_sift_up]
      simp
    simp [min_heap_delete_min, hins, nth]

theorem c10_empty_queue_sentinel_witness :
    min_heap_delete_min ⟨[], 0⟩ = (-1, ⟨[], 0⟩)
    ∧ min_heap_peek_min ⟨[], 0⟩ = -1
    ∧ (min_heap_delete_min (min_heap_insert ⟨[], 0⟩ (-1))).1 = -1 :=
  c10_empty_queue_sentinel ⟨[], 0⟩ rfl

end Calc
